import Mathlib

/-!
Verification of the crossword CSP core (src/week3/crossword/generate.py).

Python strings are modelled as lists of characters, the domain store
(self.domains) as a function from variables to candidate-word lists, and
assignments (Python dicts) as association lists in insertion order.  Fallible
code paths (unpacking a missing overlap, an unbound local, an index error, or
non-termination) are modelled with Except.  The Grid Model (class Crossword of
crossword.py) is not among the sources, so it is modelled from the spec.
-/

set_option maxHeartbeats 1000000

namespace Generate

/-- Words are Python strings, modelled as lists of characters. -/
abbrev Word := List Char

/-- Character access word[i]; all solver accesses are in range once word
lengths match slot lengths, so a default character stands in for the
out-of-range case. -/
def charAt (w : Word) (i : Nat) : Char := w.getD i ' '

/-- Modelled from the spec: the Grid Model (class Crossword of crossword.py,
absent from the sources).  It carries the derived variable slots, the candidate
word list, each slot's length, and the overlap table giving for intersecting
slots the pair of local character indices at which they must agree (none means
no constraint). -/
structure Crossword (V : Type) where
  vars : List V
  words : List Word
  length : V → Nat
  overlaps : V → V → Option (Nat × Nat)

variable {V : Type} [DecidableEq V]

/-- Modelled from the spec: crossword.py's Crossword.neighbors, the variables
other than var that share an overlap with it (the Python code tests
overlaps[v, var]). -/
def neighbors (cw : Crossword V) (var : V) : List V :=
  cw.vars.filter (fun v => decide (v ≠ var) && (cw.overlaps v var).isSome)

/-- Pointwise update of the domain store at one variable. -/
def updateStore (d : V → List Word) (v : V) (ws : List Word) : V → List Word :=
  fun u => if u = v then ws else d u

/-- Domain store built by CrosswordCreator.init: every variable starts with a
copy of the full word list. -/
def initDomains (cw : Crossword V) : V → List Word := fun _ => cw.words

/-- Translation of CrosswordCreator.enforce_node_consistency: iterate over a
copy of the store (the function argument d) and remove from the live store
every word whose length differs from the variable's length. -/
def enforce_node_consistency (cw : Crossword V) (d : V → List Word) : V → List Word :=
  cw.vars.foldl (fun acc v =>
    (d v).foldl (fun acc2 w =>
      if w.length ≠ cw.length v then updateStore acc2 v ((acc2 v).erase w) else acc2) acc) d

/-- Inner loop of CrosswordCreator.revise: iterate over a copy of x's domain,
erasing from the live store each word of x with no matching word in the live
domain of y; the flag records whether any removal occurred. -/
def reviseGo (x y : V) (xo yo : Nat) :
    List Word → (V → List Word) → Bool → ((V → List Word) × Bool)
  | [], d, rev => (d, rev)
  | xw :: rest, d, rev =>
    if (d y).any (fun yw => charAt xw xo == charAt yw yo) then
      reviseGo x y xo yo rest d rev
    else
      reviseGo x y xo yo rest (updateStore d x ((d x).erase xw)) true

/-- Translation of CrosswordCreator.revise.  Unpacking overlaps[x, y] raises a
TypeError when no overlap is defined (the error case); the source guard
`if xoverlap:` is false when the x-side overlap index is 0, in which case
nothing is removed and False is returned. -/
def revise (cw : Crossword V) (d : V → List Word) (x y : V) :
    Except Unit ((V → List Word) × Bool) :=
  match cw.overlaps x y with
  | none => .error ()
  | some (xoverlap, yoverlap) =>
    if xoverlap ≠ 0 then .ok (reviseGo x y xoverlap yoverlap (d x) d false)
    else .ok (d, false)

/-- Initial queue of CrosswordCreator.ac3 when no arcs are supplied: for every
variable in the store, every arc to one of its neighbors whose overlap is
defined. -/
def buildQueue (cw : Crossword V) : List (V × V) :=
  cw.vars.foldl (fun q v1 =>
    q ++ ((neighbors cw v1).filter (fun v2 => (cw.overlaps v1 v2).isSome)).map
      (fun v2 => (v1, v2))) []

/-- Body of CrosswordCreator.ac3 once the queue has been built.  The source's
`return True` is indented inside the while loop, so at most one arc is ever
processed (the re-enqueueing of (neighbour, x) arcs in the source is dead
code, immediately followed by the return), and an initially empty queue makes
the function fall through, returning Python None (the none result). -/
def ac3core (cw : Crossword V) (d : V → List Word) :
    Except Unit ((V → List Word) × Option Bool) :=
  match buildQueue cw with
  | [] => .ok (d, none)
  | (x, y) :: _ =>
    match revise cw d x y with
    | .error e => .error e
    | .ok (d1, revised) =>
      if revised then
        if (d1 x).length = 0 then .ok (d1, some false)
        else .ok (d1, some true)
      else .ok (d1, some true)

/-- Translation of CrosswordCreator.ac3.  With a non-empty arcs argument the
Python code never assigns its local queue and raises UnboundLocalError (the
error case); arcs equal to None or to the empty list both rebuild the full
queue (`if not arcs:`) and run the loop body ac3core. -/
def ac3 (cw : Crossword V) (d : V → List Word) (arcs : Option (List (V × V))) :
    Except Unit ((V → List Word) × Option Bool) :=
  match arcs with
  | some (_ :: _) => .error ()
  | _ => ac3core cw d

/-- Assignments are Python dicts from variables to words, modelled as
association lists in insertion order (keys are unique for every assignment the
solver builds). -/
abbrev Assignment (V : Type) := List (V × Word)

/-- Dictionary lookup assignment[v] (also models `v in assignment`). -/
def dlookup : Assignment V → V → Option Word
  | [], _ => none
  | (u, w) :: rest, v => if u = v then some w else dlookup rest v

/-- Dictionary store assignment[v] = w: overwrite in place when the key exists,
append otherwise. -/
def dinsert : Assignment V → V → Word → Assignment V
  | [], v, w => [(v, w)]
  | (u, x) :: rest, v, w =>
    if u = v then (u, w) :: rest else (u, x) :: dinsert rest v w

/-- Translation of CrosswordCreator.consistent: all assigned words pairwise
distinct (len(words) == len(set(words))), every word of the correct length, and
no conflict at the overlap of any two assigned neighbors.  The none overlap
branch is unreachable for grid models built by crossword.py, whose overlap
table is symmetric, and counts as no conflict here. -/
def consistentB (cw : Crossword V) (a : Assignment V) : Bool :=
  (((a.map Prod.snd).dedup).length == (a.map Prod.snd).length) &&
  (a.all (fun p => cw.length p.1 == p.2.length)) &&
  (a.all (fun p => (neighbors cw p.1).all (fun nb =>
    match dlookup a nb with
    | none => true
    | some nw =>
      match cw.overlaps p.1 nb with
      | none => true
      | some ij => charAt p.2 ij.1 == charAt nw ij.2)))

/-- Stable insertion of x after every element of no greater key. -/
def insertSorted {A : Type} (key : A → Nat) (x : A) : List A → List A
  | [] => [x]
  | y :: ys => if key y ≤ key x then y :: insertSorted key x ys else x :: y :: ys

/-- Stable sort by a numeric key, modelling Python sorted with a key function
(a stable sort's output is determined by the key, so this matches Timsort). -/
def sortByKey {A : Type} (key : A → Nat) (l : List A) : List A :=
  l.foldl (fun acc x => insertSorted key x acc) []

/-- Translation of CrosswordCreator.select_unassigned_variable: the unassigned
variables sorted by current domain size alone (the source applies no degree
tiebreak), taking the first; sorted_list[0] raises IndexError when everything
is assigned (the none result). -/
def select_unassigned_variable (cw : Crossword V) (d : V → List Word)
    (a : Assignment V) : Option V :=
  (sortByKey (fun v => (d v).length)
    (cw.vars.filter (fun v => (dlookup a v).isNone))).head?

/-- Translation of CrosswordCreator.order_domain_values: map each word of var's
domain to the number of words it would eliminate from unassigned neighbors'
domains, sort stably by that count, and return the words.  The none overlap
branch is unreachable for crossword.py grid models (symmetric overlap table). -/
def order_domain_values (cw : Crossword V) (d : V → List Word) (var : V)
    (a : Assignment V) : List Word :=
  (sortByKey (fun p => p.2)
    ((d var).map (fun w =>
      (w, (neighbors cw var).foldl (fun eliminated nb =>
        if (dlookup a nb).isSome then eliminated
        else
          match cw.overlaps var nb with
          | none => eliminated
          | some ij =>
            eliminated + (d nb).countP (fun nw => charAt w ij.1 != charAt nw ij.2)) 0)))).map
    Prod.fst

/-- One iteration of backtrack's candidate loop: once a result or an error has
been produced it is propagated unchanged (Python's early return), otherwise the
assignment copy extended with the candidate word is checked for consistency and
the recursive call (recur) is made on it. -/
def btStep (cw : Crossword V) (a : Assignment V) (v : V)
    (recur : (V → List Word) → Assignment V →
      ((V → List Word) × Except Unit (Option (Assignment V))))
    (acc : (V → List Word) × Except Unit (Option (Assignment V))) (w : Word) :
    ((V → List Word) × Except Unit (Option (Assignment V))) :=
  match acc with
  | (st, .error e) => (st, .error e)
  | (st, .ok (some r)) => (st, .ok (some r))
  | (st, .ok none) =>
    if consistentB cw (dinsert a v w) then recur st (dinsert a v w)
    else (st, .ok none)

/-- Translation of CrosswordCreator.backtrack, with self.domains threaded as
explicit state (the method reads the store and never writes it) and a fuel
argument bounding recursion depth.  Candidate words are tried in raw domain
order: the source iterates self.domains[variable] and never calls
order_domain_values.  Each candidate extends a copy of the assignment (btStep).
Out of fuel, and an empty selection (IndexError in sorted_list[0], unreachable
from the empty assignment), are error cases. -/
def backtrack (cw : Crossword V) :
    Nat → (V → List Word) → Assignment V →
      ((V → List Word) × Except Unit (Option (Assignment V)))
  | 0, s, _ => (s, .error ())
  | fuel + 1, s, a =>
    if a.length = cw.vars.length then (s, .ok (some a))
    else
      match select_unassigned_variable cw s a with
      | none => (s, .error ())
      | some v => (s v).foldl (btStep cw a v (backtrack cw fuel)) (s, .ok none)

/-- Arc consistency of a whole domain store, following the spec: every word in
every variable's domain has a supporting word in each neighbor's domain at the
shared overlap indices. -/
def arcConsistentB (cw : Crossword V) (d : V → List Word) : Bool :=
  cw.vars.all (fun x => (neighbors cw x).all (fun y =>
    match cw.overlaps x y with
    | none => true
    | some ij =>
      (d x).all (fun w => (d y).any (fun w2 => charAt w ij.1 == charAt w2 ij.2))))

/-!  Concrete crossword instances used to evaluate the model. -/

/-- Two crossing slots: slot 0 of length 1 and slot 1 of length 2, sharing
their first characters. -/
def cwA : Crossword Nat where
  vars := [0, 1]
  words := [['a'], ['b'], ['a','c'], ['b','d'], ['b','e']]
  length := fun v => if v = 0 then 1 else 2
  overlaps := fun u v =>
    if u = 0 && v = 1 then some (0, 0)
    else if u = 1 && v = 0 then some (0, 0) else none

/-- Domain store for cwA after pruning to matching lengths. -/
def dA : Nat → List Word := fun v =>
  if v = 0 then [['a'], ['b']]
  else if v = 1 then [['a','c'], ['b','d'], ['b','e']] else []

/-- Chain of three slots of length 2: 0 and 1 cross, 1 and 2 cross, both at
their second characters. -/
def cwB : Crossword Nat where
  vars := [0, 1, 2]
  words := [['a','a'], ['c','c']]
  length := fun _ => 2
  overlaps := fun u v =>
    if (u = 0 && v = 1) || (u = 1 && v = 0) || (u = 1 && v = 2) || (u = 2 && v = 1)
    then some (1, 1) else none

/-- Domain store for cwB in which slot 1 still holds a word with no support in
slot 2's domain. -/
def dB : Nat → List Word := fun v =>
  if v = 0 then [['a','a']]
  else if v = 1 then [['a','a'], ['c','c']]
  else if v = 2 then [['a','a']] else []

/-- Arc-consistent domain store for cwB: every slot holds only the word aa. -/
def dB2 : Nat → List Word := fun v =>
  if v = 0 then [['a','a']]
  else if v = 1 then [['a','a']]
  else if v = 2 then [['a','a']] else []

/-- Two crossing slots of length 1 overlapping at index 0 on both sides. -/
def cwC : Crossword Nat where
  vars := [0, 1]
  words := [['a'], ['b']]
  length := fun _ => 1
  overlaps := fun u v =>
    if (u = 0 && v = 1) || (u = 1 && v = 0) then some (0, 0) else none

/-- Domain store for cwC whose two domains are incompatible at the overlap. -/
def dC : Nat → List Word := fun v =>
  if v = 0 then [['a']] else if v = 1 then [['b']] else []

/-- Three slots where only 1 and 2 cross, so slot 0 has degree 0 and slot 1 has
degree 1. -/
def cwD : Crossword Nat where
  vars := [0, 1, 2]
  words := [['a','a'], ['b','b'], ['c','c']]
  length := fun _ => 2
  overlaps := fun u v =>
    if (u = 1 && v = 2) || (u = 2 && v = 1) then some (1, 1) else none

/-- Domain store for cwD giving slots 0 and 1 equal domain sizes. -/
def dD : Nat → List Word := fun v =>
  if v = 0 then [['a','a']] else if v = 1 then [['b','b']] else [['c','c']]

/-!  Monotonicity of the store operations: they only erase words. -/

theorem reviseGo_fst_subset (x y : V) (xo yo : Nat) :
    ∀ (ws : List Word) (d : V → List Word) (rev : Bool) (v : V) (w : Word),
      w ∈ (reviseGo x y xo yo ws d rev).1 v → w ∈ d v := by
  intro ws
  induction ws with
  | nil => intro d rev v w h; exact h
  | cons xw rest ih =>
    intro d rev v w h
    simp only [reviseGo] at h
    split at h
    · exact ih d rev v w h
    · have h2 := ih _ true v w h
      simp only [updateStore] at h2
      split at h2
      next hvx => subst hvx; exact List.erase_subset _ _ h2
      next => exact h2

theorem encInner_subset (cw : Crossword V) (v : V) :
    ∀ (ws : List Word) (acc : V → List Word) (u : V) (w : Word),
      w ∈ (ws.foldl (fun acc2 w2 =>
            if w2.length ≠ cw.length v then updateStore acc2 v ((acc2 v).erase w2) else acc2)
          acc) u →
      w ∈ acc u := by
  intro ws
  induction ws with
  | nil => intro acc u w h; exact h
  | cons w2 rest ih =>
    intro acc u w h
    have h2 : w ∈ (if w2.length ≠ cw.length v
        then updateStore acc v ((acc v).erase w2) else acc) u := ih _ u w h
    split at h2
    · simp only [updateStore] at h2
      split at h2
      next hvx => subst hvx; exact List.erase_subset _ _ h2
      next => exact h2
    · exact h2

theorem enc_foldl_subset (cw : Crossword V) (d : V → List Word) :
    ∀ (vs : List V) (acc : V → List Word) (u : V) (w : Word),
      w ∈ (vs.foldl (fun acc v =>
            (d v).foldl (fun acc2 w2 =>
              if w2.length ≠ cw.length v then updateStore acc2 v ((acc2 v).erase w2) else acc2)
              acc) acc) u →
      w ∈ acc u := by
  intro vs
  induction vs with
  | nil => intro acc u w h; exact h
  | cons v vs ih =>
    intro acc u w h
    exact encInner_subset cw v (d v) acc u w (ih _ u w h)

theorem enforce_node_consistency_subset (cw : Crossword V) (d : V → List Word)
    (v : V) (w : Word) (h : w ∈ enforce_node_consistency cw d v) : w ∈ d v :=
  enc_foldl_subset cw d cw.vars d v w h

theorem revise_fst_subset (cw : Crossword V) (d : V → List Word) (x y : V)
    (d1 : V → List Word) (b : Bool) (h : revise cw d x y = .ok (d1, b))
    (v : V) (w : Word) (hw : w ∈ d1 v) : w ∈ d v := by
  cases hov : cw.overlaps x y with
  | none => unfold revise at h; rw [hov] at h; exact absurd h (by simp)
  | some ij =>
    obtain ⟨xo, yo⟩ := ij
    unfold revise at h
    simp only [hov] at h
    split at h
    · injection h with h
      have hw2 : w ∈ (reviseGo x y xo yo (d x) d false).1 v := by rw [h]; exact hw
      exact reviseGo_fst_subset x y xo yo (d x) d false v w hw2
    · cases h; exact hw

theorem ac3core_fst_subset (cw : Crossword V) (d : V → List Word)
    (d2 : V → List Word) (r : Option Bool)
    (h : ac3core cw d = .ok (d2, r)) (v : V) (w : Word) (hw : w ∈ d2 v) : w ∈ d v := by
  cases hq : buildQueue cw with
  | nil =>
    unfold ac3core at h; rw [hq] at h
    cases h; exact hw
  | cons p rest =>
    obtain ⟨x, y⟩ := p
    unfold ac3core at h; simp only [hq] at h
    cases hrev : revise cw d x y with
    | error e => simp only [hrev] at h; exact absurd h (by simp)
    | ok q =>
      obtain ⟨d1, revised⟩ := q
      simp only [hrev] at h
      have hd2 : d2 = d1 := by
        split at h
        · split at h <;> (cases h; rfl)
        · cases h; rfl
      exact revise_fst_subset cw d x y d1 revised hrev v w (hd2 ▸ hw)

theorem ac3_fst_subset (cw : Crossword V) (d : V → List Word)
    (arcs : Option (List (V × V))) (d2 : V → List Word) (r : Option Bool)
    (h : ac3 cw d arcs = .ok (d2, r)) (v : V) (w : Word) (hw : w ∈ d2 v) : w ∈ d v := by
  rcases arcs with _ | (_ | ⟨a, l⟩)
  · exact ac3core_fst_subset cw d d2 r h v w hw
  · exact ac3core_fst_subset cw d d2 r h v w hw
  · exact absurd h (by simp [ac3])

/-!  Characterization of enforce_node_consistency. -/

/-- Iterating erasures over a duplicate-free word set keeps exactly the
members not satisfying the removal condition among those examined. -/
theorem mem_foldl_erase (p : Word → Prop) [DecidablePred p] :
    ∀ (ws s : List Word), s.Nodup → ∀ w : Word,
      (w ∈ ws.foldl (fun s2 u => if p u then s2.erase u else s2) s ↔
        (w ∈ s ∧ (w ∈ ws → ¬ p w))) := by
  intro ws
  induction ws with
  | nil => intro s _ w; simp
  | cons u ws ih =>
    intro s hs w
    rw [List.foldl_cons]
    by_cases hp : p u
    · rw [if_pos hp, ih (s.erase u) (hs.erase u) w]
      rw [hs.mem_erase_iff]
      constructor
      · rintro ⟨⟨hne, hmem⟩, hcond⟩
        refine ⟨hmem, fun hin => ?_⟩
        rcases List.mem_cons.mp hin with h | h
        · exact absurd h hne
        · exact hcond h
      · rintro ⟨hmem, hcond⟩
        have hne : w ≠ u := by
          intro he
          exact hcond (he ▸ List.mem_cons_self u ws) (he ▸ hp)
        exact ⟨⟨hne, hmem⟩, fun hin => hcond (List.mem_cons_of_mem u hin)⟩
    · rw [if_neg hp, ih s hs w]
      constructor
      · rintro ⟨hmem, hcond⟩
        refine ⟨hmem, fun hin => ?_⟩
        rcases List.mem_cons.mp hin with h | h
        · exact h ▸ hp
        · exact hcond h
      · rintro ⟨hmem, hcond⟩
        exact ⟨hmem, fun hin => hcond (List.mem_cons_of_mem u hin)⟩

/-- The inner removal loop of enforce_node_consistency, observed at the
variable it treats, is a plain fold of erasures over that variable's list. -/
theorem encInner_at (cw : Crossword V) (v : V) :
    ∀ (ws : List Word) (acc : V → List Word),
      (ws.foldl (fun acc2 w2 =>
        if w2.length ≠ cw.length v then updateStore acc2 v ((acc2 v).erase w2) else acc2)
        acc) v =
      ws.foldl (fun s w2 => if w2.length ≠ cw.length v then s.erase w2 else s) (acc v) := by
  intro ws
  induction ws with
  | nil => intro acc; rfl
  | cons w2 ws ih =>
    intro acc
    rw [List.foldl_cons, List.foldl_cons]
    by_cases hp : w2.length ≠ cw.length v
    · rw [if_pos hp, if_pos hp, ih]
      have : updateStore acc v ((acc v).erase w2) v = (acc v).erase w2 := by
        simp [updateStore]
      rw [this]
    · rw [if_neg hp, if_neg hp, ih]

/-- The inner removal loop of enforce_node_consistency leaves every other
variable's domain unchanged. -/
theorem encInner_ne (cw : Crossword V) (v : V) :
    ∀ (ws : List Word) (acc : V → List Word) (u : V), u ≠ v →
      (ws.foldl (fun acc2 w2 =>
        if w2.length ≠ cw.length v then updateStore acc2 v ((acc2 v).erase w2) else acc2)
        acc) u = acc u := by
  intro ws
  induction ws with
  | nil => intro acc u _; rfl
  | cons w2 ws ih =>
    intro acc u hu
    rw [List.foldl_cons, ih _ u hu]
    by_cases hp : w2.length ≠ cw.length v
    · rw [if_pos hp]
      simp [updateStore, hu]
    · rw [if_neg hp]

/-- Variables never revisited by the outer loop of enforce_node_consistency
keep their domains. -/
theorem encOuter_ne (cw : Crossword V) (d : V → List Word) :
    ∀ (vs : List V) (acc : V → List Word) (v : V), v ∉ vs →
      (vs.foldl (fun acc v0 =>
        (d v0).foldl (fun acc2 w2 =>
          if w2.length ≠ cw.length v0 then updateStore acc2 v0 ((acc2 v0).erase w2) else acc2)
          acc) acc) v = acc v := by
  intro vs
  induction vs with
  | nil => intro acc v _; rfl
  | cons v0 vs ih =>
    intro acc v hv
    rw [List.foldl_cons, ih _ v (fun h => hv (List.mem_cons_of_mem v0 h))]
    exact encInner_ne cw v0 (d v0) acc v (fun h => hv (h ▸ List.mem_cons_self v0 vs))

/-- Value of enforce_node_consistency at a variable of the grid, when the
variable list has no duplicates: a fold of erasures over the variable's
initial domain. -/
theorem enc_foldl_at (cw : Crossword V) (d : V → List Word) :
    ∀ (vs : List V) (acc : V → List Word) (v : V), vs.Nodup → v ∈ vs → acc v = d v →
      (vs.foldl (fun acc v0 =>
        (d v0).foldl (fun acc2 w2 =>
          if w2.length ≠ cw.length v0 then updateStore acc2 v0 ((acc2 v0).erase w2) else acc2)
          acc) acc) v =
      (d v).foldl (fun s w2 => if w2.length ≠ cw.length v then s.erase w2 else s) (d v) := by
  intro vs
  induction vs with
  | nil => intro acc v _ hv; exact absurd hv (List.not_mem_nil v)
  | cons v0 vs ih =>
    intro acc v hnd hv hacc
    rw [List.foldl_cons]
    rcases List.mem_cons.mp hv with he | hmem
    · subst he
      rw [encOuter_ne cw d vs _ v (List.nodup_cons.mp hnd).1]
      rw [encInner_at cw v (d v) acc, hacc]
    · have hne : v ≠ v0 := by
        intro he; exact (List.nodup_cons.mp hnd).1 (he ▸ hmem)
      refine ih _ v (List.nodup_cons.mp hnd).2 hmem ?_
      rw [encInner_ne cw v0 (d v0) acc v hne, hacc]

/-- C4.  After initialization and enforce_node_consistency, every variable's
domain holds exactly the supplied words whose length equals the variable's
length. -/
theorem c4_node_consistency (cw : Crossword V) (hw : cw.words.Nodup)
    (hv : cw.vars.Nodup) (v : V) (hmem : v ∈ cw.vars) (w : Word) :
    w ∈ enforce_node_consistency cw (initDomains cw) v ↔
      (w ∈ cw.words ∧ w.length = cw.length v) := by
  unfold enforce_node_consistency
  rw [enc_foldl_at cw (initDomains cw) cw.vars (initDomains cw) v hv hmem rfl]
  simp only [initDomains]
  rw [mem_foldl_erase (fun u => u.length ≠ cw.length v) cw.words cw.words hw w]
  constructor
  · rintro ⟨h1, h2⟩
    exact ⟨h1, not_not.mp (h2 h1)⟩
  · rintro ⟨h1, h2⟩
    exact ⟨h1, fun _ => not_not.mpr h2⟩

/-- Witness for C4 on the concrete grid cwB. -/
theorem c4_node_consistency_witness :
    ['a','a'] ∈ enforce_node_consistency cwB (initDomains cwB) 0 ↔
      (['a','a'] ∈ cwB.words ∧ (['a','a'] : Word).length = cwB.length 0) :=
  c4_node_consistency cwB (by decide) (by decide) 0 (by decide) ['a','a']

/-!  Support lemmas for arc-consistency idempotence. -/

theorem mem_neighbors (cw : Crossword V) (u var : V) :
    u ∈ neighbors cw var ↔ (u ∈ cw.vars ∧ u ≠ var ∧ (cw.overlaps u var).isSome) := by
  unfold neighbors
  rw [List.mem_filter]
  simp only [Bool.and_eq_true, decide_eq_true_eq]

theorem mem_foldl_append {A B : Type} (f : A → List B) :
    ∀ (l : List A) (init : List B) (b : B),
      (b ∈ l.foldl (fun q v => q ++ f v) init ↔ b ∈ init ∨ ∃ v ∈ l, b ∈ f v) := by
  intro l
  induction l with
  | nil => intro init b; simp
  | cons v0 l ih =>
    intro init b
    rw [List.foldl_cons, ih (init ++ f v0) b]
    simp only [List.mem_append, List.mem_cons]
    constructor
    · rintro ((h | h) | ⟨v, hv, hb⟩)
      · exact Or.inl h
      · exact Or.inr ⟨v0, Or.inl rfl, h⟩
      · exact Or.inr ⟨v, Or.inr hv, hb⟩
    · rintro (h | ⟨v, (he | hv), hb⟩)
      · exact Or.inl (Or.inl h)
      · exact Or.inl (Or.inr (he ▸ hb))
      · exact Or.inr ⟨v, hv, hb⟩

theorem mem_buildQueue (cw : Crossword V) (p : V × V) :
    p ∈ buildQueue cw ↔
      (p.1 ∈ cw.vars ∧ p.2 ∈ neighbors cw p.1 ∧ (cw.overlaps p.1 p.2).isSome) := by
  unfold buildQueue
  rw [mem_foldl_append
    (fun v1 => ((neighbors cw v1).filter (fun v2 => (cw.overlaps v1 v2).isSome)).map
      (fun v2 => (v1, v2))) cw.vars [] p]
  simp only [List.not_mem_nil, false_or, List.mem_map, List.mem_filter]
  constructor
  · rintro ⟨v1, hv1, v2, ⟨hnb, hov⟩, he⟩
    obtain ⟨he1, he2⟩ := Prod.mk.injEq .. ▸ he.symm
    subst he1; subst he2
    exact ⟨hv1, hnb, hov⟩
  · rintro ⟨h1, h2, h3⟩
    exact ⟨p.1, h1, p.2, ⟨h2, h3⟩, rfl⟩

/-- When every word of the iterated list has a match in the live y-domain, the
revise loop changes nothing. -/
theorem reviseGo_no_removal (x y : V) (i j : Nat) (d : V → List Word) :
    ∀ (ws : List Word) (rev : Bool),
      (∀ w ∈ ws, (d y).any (fun yw => charAt w i == charAt yw j) = true) →
      reviseGo x y i j ws d rev = (d, rev) := by
  intro ws
  induction ws with
  | nil => intro rev _; rfl
  | cons xw rest ih =>
    intro rev h
    simp only [reviseGo]
    rw [if_pos (h xw (List.mem_cons_self xw rest))]
    exact ih rev (fun w hw => h w (List.mem_cons_of_mem xw hw))

/-- The revise loop only touches x's domain. -/
theorem reviseGo_fst_ne (x y : V) (i j : Nat) :
    ∀ (ws : List Word) (s : V → List Word) (rev : Bool) (u : V), u ≠ x →
      (reviseGo x y i j ws s rev).1 u = s u := by
  intro ws
  induction ws with
  | nil => intro s rev u _; rfl
  | cons xw rest ih =>
    intro s rev u hu
    simp only [reviseGo]
    split
    · exact ih s rev u hu
    · rw [ih _ true u hu]
      simp [updateStore, hu]

/-- Words surviving the revise loop were in x's domain and, if they were
examined, have a supporting word in the fixed y-domain. -/
theorem reviseGo_survivors (x y : V) (i j : Nat) (Y : List Word) (hyx : y ≠ x) :
    ∀ (ws : List Word) (s : V → List Word) (rev : Bool), s y = Y → (s x).Nodup →
      ∀ w ∈ (reviseGo x y i j ws s rev).1 x,
        (w ∈ s x ∧ (w ∈ ws → Y.any (fun yw => charAt w i == charAt yw j) = true)) := by
  intro ws
  induction ws with
  | nil =>
    intro s rev _ _ w hw
    exact ⟨hw, fun hin => absurd hin (List.not_mem_nil w)⟩
  | cons xw rest ih =>
    intro s rev hY hnd w hw
    simp only [reviseGo] at hw
    by_cases hany : (s y).any (fun yw => charAt xw i == charAt yw j) = true
    · rw [if_pos hany] at hw
      obtain ⟨h1, h2⟩ := ih s rev hY hnd w hw
      refine ⟨h1, fun hin => ?_⟩
      rcases List.mem_cons.mp hin with he | hmem
      · subst he; exact hY ▸ hany
      · exact h2 hmem
    · rw [if_neg hany] at hw
      have hsx : updateStore s x ((s x).erase xw) x = (s x).erase xw := by
        simp [updateStore]
      have hY2 : updateStore s x ((s x).erase xw) y = Y := by
        rw [← hY]; simp [updateStore, hyx]
      have hnd2 : (updateStore s x ((s x).erase xw) x).Nodup := by
        rw [hsx]; exact hnd.erase xw
      obtain ⟨h1, h2⟩ := ih _ true hY2 hnd2 w hw
      rw [hsx] at h1
      obtain ⟨hne, hmem⟩ := hnd.mem_erase_iff.mp h1
      refine ⟨hmem, fun hin => ?_⟩
      rcases List.mem_cons.mp hin with he | hmem2
      · exact absurd he hne
      · exact h2 hmem2

/-- When every word of x's domain is supported by y's domain, revise changes
nothing and reports no revision. -/
theorem revise_of_supported (cw : Crossword V) (d : V → List Word) (x y : V)
    (i j : Nat) (hov : cw.overlaps x y = some (i, j))
    (hsupp : ∀ w ∈ d x, (d y).any (fun yw => charAt w i == charAt yw j) = true) :
    revise cw d x y = .ok (d, false) := by
  unfold revise
  simp only [hov]
  by_cases hi : i ≠ 0
  · rw [if_pos hi, reviseGo_no_removal x y i j d (d x) false hsupp]
  · rw [if_neg hi]

/-- Running revise a second time on the same arc removes nothing more. -/
theorem revise_twice (cw : Crossword V) (d : V → List Word) (x y : V)
    (i j : Nat) (hov : cw.overlaps x y = some (i, j)) (hyx : y ≠ x)
    (hnd : (d x).Nodup) (d1 : V → List Word) (b : Bool)
    (h : revise cw d x y = .ok (d1, b)) :
    revise cw d1 x y = .ok (d1, false) := by
  unfold revise at h
  simp only [hov] at h
  by_cases hi : i ≠ 0
  · rw [if_pos hi] at h
    injection h with h
    have hd1 : d1 = (reviseGo x y i j (d x) d false).1 := by rw [h]
    have hy1 : d1 y = d y := by
      rw [hd1]; exact reviseGo_fst_ne x y i j (d x) d false y hyx
    have hsupp : ∀ w ∈ d1 x, (d1 y).any (fun yw => charAt w i == charAt yw j) = true := by
      intro w hw
      rw [hd1] at hw
      obtain ⟨h1, h2⟩ := reviseGo_survivors x y i j (d y) hyx (d x) d false rfl hnd w hw
      rw [hy1]
      exact h2 h1
    exact revise_of_supported cw d1 x y i j hov hsupp
  · rw [if_neg hi] at h
    cases h
    unfold revise
    simp only [hov]
    rw [if_neg hi]

/-- Unfolding of arc consistency of the store at one arc. -/
theorem arcConsistentB_spec (cw : Crossword V) (d : V → List Word)
    (h : arcConsistentB cw d = true) (x : V) (hx : x ∈ cw.vars) (y : V)
    (hy : y ∈ neighbors cw x) (i j : Nat) (hov : cw.overlaps x y = some (i, j)) :
    ∀ w ∈ d x, (d y).any (fun yw => charAt w i == charAt yw j) = true := by
  unfold arcConsistentB at h
  rw [List.all_eq_true] at h
  have h2 := h x hx
  simp only [List.all_eq_true] at h2
  have h3 := h2 y hy
  simp only [hov] at h3
  rw [List.all_eq_true] at h3
  exact fun w hw => h3 w hw

/-- C10.  Arc-consistency enforcement is idempotent: on an arc-consistent
store ac3 removes nothing (it returns the store it was given), and after any
successful ac3 run a second run removes nothing further. -/
theorem c10_ac3_idempotent (cw : Crossword V) (d : V → List Word)
    (hnd : ∀ v : V, (d v).Nodup) :
    (arcConsistentB cw d = true → ∃ r, ac3 cw d none = .ok (d, r)) ∧
    (∀ d1 r1, ac3 cw d none = .ok (d1, r1) → ∃ r2, ac3 cw d1 none = .ok (d1, r2)) := by
  constructor
  · intro hac
    show ∃ r, ac3core cw d = .ok (d, r)
    cases hq : buildQueue cw with
    | nil =>
      refine ⟨none, ?_⟩
      unfold ac3core
      simp only [hq]
    | cons p rest =>
      obtain ⟨x, y⟩ := p
      have hp : (x, y) ∈ buildQueue cw := hq ▸ List.mem_cons_self (x, y) rest
      obtain ⟨hx, hy, hovs⟩ := (mem_buildQueue cw (x, y)).mp hp
      obtain ⟨ij, hov⟩ := Option.isSome_iff_exists.mp hovs
      obtain ⟨i, j⟩ := ij
      have hrev : revise cw d x y = .ok (d, false) :=
        revise_of_supported cw d x y i j hov (arcConsistentB_spec cw d hac x hx y hy i j hov)
      refine ⟨some true, ?_⟩
      unfold ac3core
      simp only [hq, hrev]
      rfl
  · intro d1 r1 h1
    show ∃ r2, ac3core cw d1 = .ok (d1, r2)
    have h1c : ac3core cw d = .ok (d1, r1) := h1
    cases hq : buildQueue cw with
    | nil =>
      unfold ac3core at h1c
      simp only [hq] at h1c
      cases h1c
      refine ⟨none, ?_⟩
      unfold ac3core
      simp only [hq]
    | cons p rest =>
      obtain ⟨x, y⟩ := p
      have hp : (x, y) ∈ buildQueue cw := hq ▸ List.mem_cons_self (x, y) rest
      obtain ⟨hx, hy, hovs⟩ := (mem_buildQueue cw (x, y)).mp hp
      obtain ⟨ij, hov⟩ := Option.isSome_iff_exists.mp hovs
      obtain ⟨i, j⟩ := ij
      have hyx : y ≠ x := ((mem_neighbors cw y x).mp hy).2.1
      unfold ac3core at h1c
      simp only [hq] at h1c
      cases hrev : revise cw d x y with
      | error e =>
        rw [hrev] at h1c
        exact absurd h1c (by simp)
      | ok q =>
        obtain ⟨d1', revised⟩ := q
        simp only [hrev] at h1c
        have hd1 : d1 = d1' := by
          split at h1c
          · split at h1c <;> (cases h1c; rfl)
          · cases h1c; rfl
        subst hd1
        have hrev2 : revise cw d1 x y = .ok (d1, false) :=
          revise_twice cw d x y i j hov hyx (hnd x) d1 revised hrev
        refine ⟨some true, ?_⟩
        unfold ac3core
        simp only [hq, hrev2]
        rfl

/-- Witness for C10 on the concrete grid cwB with its arc-consistent store
dB2, and on the store dB for the two-successive-runs part. -/
theorem c10_ac3_idempotent_witness :
    (∃ r, ac3 cwB dB2 none = .ok (dB2, r)) ∧
    (∃ r2, ac3 cwB dB none = .ok (dB, r2)) := by
  have hnd2 : ∀ v : Nat, (dB2 v).Nodup := by
    intro v
    unfold dB2
    split
    · decide
    · split
      · decide
      · split <;> decide
  have hnd : ∀ v : Nat, (dB v).Nodup := by
    intro v
    unfold dB
    split
    · decide
    · split
      · decide
      · split <;> decide
  constructor
  · exact (c10_ac3_idempotent cwB dB2 hnd2).1 (by decide)
  · exact (c10_ac3_idempotent cwB dB hnd).2 dB (some true) rfl

/-!  Dictionary and sorting lemmas for the backtracking search. -/

theorem dlookup_mem : ∀ (a : Assignment V) (v : V) (w : Word),
    dlookup a v = some w → (v, w) ∈ a := by
  intro a
  induction a with
  | nil => intro v w h; simp [dlookup] at h
  | cons p rest ih =>
    intro v w h
    obtain ⟨u, x⟩ := p
    simp only [dlookup] at h
    by_cases huv : u = v
    · rw [if_pos huv] at h
      injection h with h
      exact huv ▸ h ▸ List.mem_cons_self (u, x) rest
    · rw [if_neg huv] at h
      exact List.mem_cons_of_mem (u, x) (ih v w h)

theorem mem_keys_exists : ∀ (a : Assignment V) (v : V),
    v ∈ a.map Prod.fst → ∃ w, dlookup a v = some w := by
  intro a
  induction a with
  | nil => intro v h; simp at h
  | cons p rest ih =>
    intro v h
    obtain ⟨u, x⟩ := p
    by_cases huv : u = v
    · exact ⟨x, by simp [dlookup, huv]⟩
    · rw [List.map_cons, List.mem_cons] at h
      rcases h with he | hm
      · exact absurd he.symm huv
      · obtain ⟨w, hw⟩ := ih v hm
        exact ⟨w, by simp [dlookup, huv, hw]⟩

theorem dlookup_none_keys (a : Assignment V) (v : V)
    (h : dlookup a v = none) : v ∉ a.map Prod.fst := by
  intro hmem
  obtain ⟨w, hw⟩ := mem_keys_exists a v hmem
  rw [h] at hw
  cases hw

theorem dinsert_append : ∀ (a : Assignment V) (v : V) (w : Word),
    dlookup a v = none → dinsert a v w = a ++ [(v, w)] := by
  intro a
  induction a with
  | nil => intro v w _; rfl
  | cons p rest ih =>
    intro v w h
    obtain ⟨u, x⟩ := p
    simp only [dlookup] at h
    by_cases huv : u = v
    · rw [if_pos huv] at h; cases h
    · rw [if_neg huv] at h
      simp only [dinsert, if_neg huv, List.cons_append]
      rw [ih v w h]

theorem mem_insertSorted {A : Type} (key : A → Nat) (x : A) :
    ∀ (l : List A) (a : A), a ∈ insertSorted key x l ↔ a = x ∨ a ∈ l := by
  intro l
  induction l with
  | nil => intro a; simp [insertSorted]
  | cons y ys ih =>
    intro a
    simp only [insertSorted]
    split
    · rw [List.mem_cons, ih a, List.mem_cons]
      tauto
    · simp only [List.mem_cons]

theorem mem_sortByKey_foldl {A : Type} (key : A → Nat) :
    ∀ (l acc : List A) (a : A),
      a ∈ l.foldl (fun acc x => insertSorted key x acc) acc ↔ a ∈ acc ∨ a ∈ l := by
  intro l
  induction l with
  | nil => intro acc a; simp
  | cons x l ih =>
    intro acc a
    rw [List.foldl_cons, ih (insertSorted key x acc) a, mem_insertSorted key x acc a,
      List.mem_cons]
    tauto

theorem mem_sortByKey {A : Type} (key : A → Nat) (l : List A) (a : A) :
    a ∈ sortByKey key l ↔ a ∈ l := by
  unfold sortByKey
  rw [mem_sortByKey_foldl key l [] a]
  simp

theorem select_some (cw : Crossword V) (s : V → List Word) (a : Assignment V) (v : V)
    (h : select_unassigned_variable cw s a = some v) :
    v ∈ cw.vars ∧ dlookup a v = none := by
  unfold select_unassigned_variable at h
  have hmem : v ∈ sortByKey (fun u => (s u).length)
      (cw.vars.filter (fun u => (dlookup a u).isNone)) := by
    cases hL : sortByKey (fun u => (s u).length)
        (cw.vars.filter (fun u => (dlookup a u).isNone)) with
    | nil => rw [hL] at h; cases h
    | cons b t =>
      rw [hL] at h
      injection h with h
      subst h
      exact List.mem_cons_self b t
  rw [mem_sortByKey, List.mem_filter] at hmem
  exact ⟨hmem.1, Option.isNone_iff_eq_none.mp hmem.2⟩

/-!  What a passed consistency check guarantees. -/

theorem consistentB_parts (cw : Crossword V) (a : Assignment V)
    (h : consistentB cw a = true) :
    (((a.map Prod.snd).dedup).length == (a.map Prod.snd).length) = true ∧
    (a.all (fun p => cw.length p.1 == p.2.length)) = true ∧
    (a.all (fun p => (neighbors cw p.1).all (fun nb =>
      match dlookup a nb with
      | none => true
      | some nw =>
        match cw.overlaps p.1 nb with
        | none => true
        | some ij => charAt p.2 ij.1 == charAt nw ij.2))) = true := by
  unfold consistentB at h
  simp only [Bool.and_eq_true] at h
  exact ⟨h.1.1, h.1.2, h.2⟩

theorem consistentB_distinct (cw : Crossword V) (a : Assignment V)
    (h : consistentB cw a = true) : (a.map Prod.snd).Nodup := by
  have h1 := (consistentB_parts cw a h).1
  rw [Nat.beq_eq_true_eq] at h1
  exact List.dedup_eq_self.mp
    ((List.dedup_sublist (a.map Prod.snd)).eq_of_length h1)

theorem consistentB_lengths (cw : Crossword V) (a : Assignment V)
    (h : consistentB cw a = true) :
    ∀ p ∈ a, (p.2 : Word).length = cw.length p.1 := by
  have h2 := (consistentB_parts cw a h).2.1
  rw [List.all_eq_true] at h2
  intro p hp
  have := h2 p hp
  simp only [Nat.beq_eq_true_eq] at this
  exact this.symm

theorem consistentB_overlap (cw : Crossword V) (a : Assignment V)
    (h : consistentB cw a = true) (v : V) (wv : Word) (hlv : dlookup a v = some wv)
    (u : V) (hu : u ∈ neighbors cw v) (wu : Word) (hlu : dlookup a u = some wu)
    (i j : Nat) (hov : cw.overlaps v u = some (i, j)) :
    charAt wv i = charAt wu j := by
  have h3 := (consistentB_parts cw a h).2.2
  rw [List.all_eq_true] at h3
  have h4 := h3 (v, wv) (dlookup_mem a v wv hlv)
  simp only [List.all_eq_true] at h4
  have h5 := h4 u hu
  simp only [hlu, hov] at h5
  exact eq_of_beq h5

/-- Two duplicate-free lists where the first is contained in the second and at
least as long contain the same elements. -/
theorem mem_of_nodup_spanning {l1 l2 : List V} (h1 : l1.Nodup) (h2 : l2.Nodup)
    (hsub : ∀ x ∈ l1, x ∈ l2) (hlen : l2.length ≤ l1.length) :
    ∀ x ∈ l2, x ∈ l1 := by
  have hsub2 : l1.toFinset ⊆ l2.toFinset := by
    intro x hx
    rw [List.mem_toFinset] at hx ⊢
    exact hsub x hx
  have hcard : l2.toFinset.card ≤ l1.toFinset.card := by
    rw [List.toFinset_card_of_nodup h1, List.toFinset_card_of_nodup h2]
    exact hlen
  have heq : l1.toFinset = l2.toFinset := Finset.eq_of_subset_of_card_le hsub2 hcard
  intro x hx
  rw [← List.mem_toFinset, ← heq, List.mem_toFinset] at hx
  exact hx

/-!  Invariants of the backtracking search. -/

/-- Any successful result coming out of backtrack's candidate loop is a
complete consistent assignment with duplicate-free keys drawn from the grid's
variables, provided the recursive calls guarantee as much and the accumulator
does too. -/
theorem btLoop_ok (cw : Crossword V) (a : Assignment V) (v : V)
    (recur : (V → List Word) → Assignment V →
      ((V → List Word) × Except Unit (Option (Assignment V))))
    (ha : (a.map Prod.fst).Nodup) (hsub : ∀ u ∈ a.map Prod.fst, u ∈ cw.vars)
    (hv : v ∈ cw.vars) (hvn : dlookup a v = none)
    (hrec : ∀ (st : V → List Word) (b : Assignment V) (r : Assignment V),
      (b.map Prod.fst).Nodup → (∀ u ∈ b.map Prod.fst, u ∈ cw.vars) →
      (recur st b).2 = .ok (some r) →
      (r.length = cw.vars.length ∧ (r = b ∨ consistentB cw r = true) ∧
        (r.map Prod.fst).Nodup ∧ ∀ u ∈ r.map Prod.fst, u ∈ cw.vars)) :
    ∀ (ws : List Word) (acc : (V → List Word) × Except Unit (Option (Assignment V))),
      (∀ r, acc.2 = .ok (some r) →
        (r.length = cw.vars.length ∧ consistentB cw r = true ∧
          (r.map Prod.fst).Nodup ∧ ∀ u ∈ r.map Prod.fst, u ∈ cw.vars)) →
      ∀ r, (ws.foldl (btStep cw a v recur) acc).2 = .ok (some r) →
        (r.length = cw.vars.length ∧ consistentB cw r = true ∧
          (r.map Prod.fst).Nodup ∧ ∀ u ∈ r.map Prod.fst, u ∈ cw.vars) := by
  intro ws
  induction ws with
  | nil => intro acc hacc; exact hacc
  | cons w ws ih =>
    intro acc hacc
    rw [List.foldl_cons]
    apply ih
    intro r hr
    obtain ⟨st, e⟩ := acc
    cases e with
    | error e => simp [btStep] at hr
    | ok o =>
      cases o with
      | some r0 =>
        have hrr : r0 = r := by simpa [btStep] using hr
        exact hacc r (by rw [← hrr])
      | none =>
        simp only [btStep] at hr
        by_cases hc : consistentB cw (dinsert a v w) = true
        · rw [if_pos hc] at hr
          have hins := dinsert_append a v w hvn
          have hknd : ((dinsert a v w).map Prod.fst).Nodup := by
            rw [hins, List.map_append]
            rw [List.nodup_append]
            refine ⟨ha, List.nodup_singleton v, ?_⟩
            intro u hu hu2
            simp only [List.map_cons, List.map_nil, List.mem_singleton] at hu2
            exact dlookup_none_keys a v hvn (hu2 ▸ hu)
          have hksub : ∀ u ∈ (dinsert a v w).map Prod.fst, u ∈ cw.vars := by
            rw [hins, List.map_append]
            intro u hu
            rcases List.mem_append.mp hu with hm | hm
            · exact hsub u hm
            · simp only [List.map_cons, List.map_nil, List.mem_singleton] at hm
              exact hm ▸ hv
          obtain ⟨h1, h2, h3, h4⟩ := hrec st (dinsert a v w) r hknd hksub hr
          refine ⟨h1, ?_, h3, h4⟩
          rcases h2 with he | hc2
          · exact he ▸ hc
          · exact hc2
        · rw [if_neg hc] at hr
          simp at hr

/-- Any assignment returned by backtrack is complete, has duplicate-free keys
drawn from the grid's variables, and is either the assignment it started from
or one that passed the consistency check. -/
theorem backtrack_ok_props (cw : Crossword V) :
    ∀ (fuel : Nat) (s : V → List Word) (a : Assignment V),
      (a.map Prod.fst).Nodup → (∀ u ∈ a.map Prod.fst, u ∈ cw.vars) →
      ∀ r, (backtrack cw fuel s a).2 = .ok (some r) →
        (r.length = cw.vars.length ∧ (r = a ∨ consistentB cw r = true) ∧
          (r.map Prod.fst).Nodup ∧ ∀ u ∈ r.map Prod.fst, u ∈ cw.vars) := by
  intro fuel
  induction fuel with
  | zero => intro s a _ _ r h; simp [backtrack] at h
  | succ fuel ih =>
    intro s a ha hsub r h
    simp only [backtrack] at h
    by_cases hlen : a.length = cw.vars.length
    · rw [if_pos hlen] at h
      obtain rfl : a = r := by simpa using h
      exact ⟨hlen, Or.inl rfl, ha, hsub⟩
    · rw [if_neg hlen] at h
      cases hsel : select_unassigned_variable cw s a with
      | none => simp only [hsel] at h; simp at h
      | some v =>
        simp only [hsel] at h
        obtain ⟨hv, hvn⟩ := select_some cw s a v hsel
        have hacc : ∀ r2, ((s, (Except.ok none : Except Unit (Option (Assignment V))))).2
            = .ok (some r2) →
            (r2.length = cw.vars.length ∧ consistentB cw r2 = true ∧
              (r2.map Prod.fst).Nodup ∧ ∀ u ∈ r2.map Prod.fst, u ∈ cw.vars) := by
          intro r2 hr2; simp at hr2
        obtain ⟨h1, h2, h3, h4⟩ := btLoop_ok cw a v (backtrack cw fuel) ha hsub hv hvn
          (fun st b r2 hbn hbs h2 => ih st b hbn hbs r2 h2) (s v) (s, .ok none) hacc r h
        exact ⟨h1, Or.inr h2, h3, h4⟩

/-!  Claim theorems. -/

/-- C2.  The claim fails on the code: ac3's `return True` is indented inside
the while loop, so the success result is returned after the very first arc is
processed, without the queue having been emptied and without the store having
been made arc-consistent.  On cwB with store dB, the queue is
[(0,1), (1,0), (1,2), (2,1)]; ac3 processes only (0,1) (no removal) and
returns True, yet the word cc of slot 1 has no support in the domain of its
neighbor 2 at their overlap (1,1), so the store is not arc-consistent and the
arcs (1,0), (1,2), (2,1) were never examined. -/
theorem c2_ac3_early_return :
    ac3 cwB dB none = .ok (dB, some true) ∧
    buildQueue cwB = [(0,1), (1,0), (1,2), (2,1)] ∧
    arcConsistentB cwB dB = false ∧
    ['c','c'] ∈ dB 1 ∧ (2 : Nat) ∈ neighbors cwB 1 ∧
    cwB.overlaps 1 2 = some (1, 1) ∧
    ∀ w ∈ dB 2, charAt ['c','c'] 1 ≠ charAt w 1 := by
  refine ⟨rfl, rfl, rfl, by decide, by decide, rfl, by decide⟩

/-- C3.  The claim fails on the code: the guard `if xoverlap:` treats an
x-side overlap index of 0 like an absent overlap, so revise removes nothing
and reports no revision even though the word a in the domain of slot 0 has no
compatible word in the domain of slot 1 at the shared overlap (0, 0). -/
theorem c3_revise_overlap_zero :
    revise cwC dC 0 1 = .ok (dC, false) ∧
    cwC.overlaps 0 1 = some (0, 0) ∧
    ['a'] ∈ dC 0 ∧
    ∀ w ∈ dC 1, charAt ['a'] 0 ≠ charAt w 0 := by
  refine ⟨rfl, rfl, by decide, by decide⟩

/-- C5.  The claim fails on the code: the local queue is only assigned inside
the `if not arcs:` branch, so a call with a non-empty starting set of arcs
raises UnboundLocalError (the error result of the model) instead of
propagating from those arcs. -/
theorem c5_ac3_arcs_crash :
    ac3 cwC dC (some [(0, 1)]) = .error () := rfl

/-- C6.  The claim fails on the code: select_unassigned_variable sorts the
unassigned variables by domain size only, with no degree tiebreak.  On cwD
with slot 2 assigned, slots 0 and 1 are unassigned with equal domain sizes;
slot 1 has strictly more neighbors, yet the code returns slot 0 (the first of
the tied candidates in insertion order). -/
theorem c6_no_degree_tiebreak :
    select_unassigned_variable cwD dD [(2, ['c','c'])] = some 0 ∧
    (dD 0).length = (dD 1).length ∧
    dlookup [((2 : Nat), ['c','c'])] 0 = none ∧
    dlookup [((2 : Nat), ['c','c'])] 1 = none ∧
    (neighbors cwD 0).length < (neighbors cwD 1).length := by
  refine ⟨rfl, rfl, rfl, rfl, by decide⟩

/-- C1.  Solution validity: when backtrack, started from the empty assignment
on a grid whose variable list has no duplicates, returns an assignment, that
assignment gives a word to every variable of the grid, its words are pairwise
distinct, every word's length equals its variable's length, and any two
assigned neighbors agree at their shared overlap indices.  (solve runs
backtrack on the store left by node- and arc-consistency, an instance of the
store d quantified here.) -/
theorem c1_solution_validity (cw : Crossword V) (hv : cw.vars.Nodup) (fuel : Nat)
    (d : V → List Word) (r : Assignment V)
    (h : (backtrack cw fuel d []).2 = .ok (some r)) :
    (∀ v ∈ cw.vars, ∃ w, dlookup r v = some w) ∧
    ((r.map Prod.snd).Nodup) ∧
    (∀ p ∈ r, (p.2 : Word).length = cw.length p.1) ∧
    (∀ v wv, dlookup r v = some wv → ∀ u ∈ neighbors cw v, ∀ wu,
      dlookup r u = some wu → ∀ i j, cw.overlaps v u = some (i, j) →
      charAt wv i = charAt wu j) := by
  obtain ⟨hlen, hdisj, hknd, hksub⟩ :=
    backtrack_ok_props cw fuel d [] (by simp) (by simp) r h
  have hcover : ∀ v ∈ cw.vars, ∃ w, dlookup r v = some w := by
    intro v hvm
    refine mem_keys_exists r v ?_
    refine mem_of_nodup_spanning hknd hv hksub ?_ v hvm
    rw [List.length_map, hlen]
  rcases hdisj with he | hcons
  · subst he
    refine ⟨hcover, List.nodup_nil, ?_, ?_⟩
    · intro p hp; simp at hp
    · intro v wv hlv; simp [dlookup] at hlv
  · exact ⟨hcover, consistentB_distinct cw r hcons, consistentB_lengths cw r hcons,
      fun v wv hlv u hu wu hlu i j hov =>
        consistentB_overlap cw r hcons v wv hlv u hu wu hlu i j hov⟩

/-- Witness for C1 on the concrete grid cwA, whose solver run returns the
assignment 0 to a, 1 to ac. -/
theorem c1_solution_validity_witness :
    (∀ v ∈ cwA.vars, ∃ w, dlookup [(0, ['a']), (1, ['a','c'])] v = some w) ∧
    ((([(0, ['a']), ((1 : Nat), ['a','c'])] : Assignment Nat).map Prod.snd).Nodup) ∧
    (∀ p ∈ ([(0, ['a']), ((1 : Nat), ['a','c'])] : Assignment Nat),
      (p.2 : Word).length = cwA.length p.1) ∧
    (∀ v wv, dlookup [(0, ['a']), (1, ['a','c'])] v = some wv →
      ∀ u ∈ neighbors cwA v, ∀ wu, dlookup [(0, ['a']), (1, ['a','c'])] u = some wu →
      ∀ i j, cwA.overlaps v u = some (i, j) → charAt wv i = charAt wu j) :=
  c1_solution_validity cwA (by decide) 3 dA [(0, ['a']), (1, ['a','c'])] rfl

/-- C8.  Every store operation only removes words: after
enforce_node_consistency, after a successful revise, and after a successful
ac3 run, every variable's domain is a subset of what it was before, so domain
sizes are non-increasing throughout node consistency and propagation. -/
theorem c8_monotonic_shrink (cw : Crossword V) (d : V → List Word) (x y v : V) (w : Word) :
    (w ∈ enforce_node_consistency cw d v → w ∈ d v) ∧
    (∀ d1 b, revise cw d x y = .ok (d1, b) → w ∈ d1 v → w ∈ d v) ∧
    (∀ arcs d2 r, ac3 cw d arcs = .ok (d2, r) → w ∈ d2 v → w ∈ d v) := by
  refine ⟨fun h => enforce_node_consistency_subset cw d v w h,
    fun d1 b h hw => revise_fst_subset cw d x y d1 b h v w hw,
    fun arcs d2 r h hw => ac3_fst_subset cw d arcs d2 r h v w hw⟩

/-- Witness for C8: the three implications instantiated on concrete stores. -/
theorem c8_monotonic_shrink_witness :
    ['a','a'] ∈ dB 1 ∧ ['a'] ∈ dC 0 ∧ ['a','a'] ∈ dB 0 := by
  refine ⟨(c8_monotonic_shrink cwB dB 0 1 1 ['a','a']).1 (by decide),
    (c8_monotonic_shrink cwC dC 0 1 0 ['a']).2.1 dC false rfl (by decide),
    (c8_monotonic_shrink cwB dB 0 1 0 ['a','a']).2.2 none dB (some true) rfl (by decide)⟩

/-- The candidate loop of backtrack leaves the domain-store component of its
accumulator untouched whenever the recursive call does. -/
theorem btLoop_fst (cw : Crossword V) (a : Assignment V) (v : V)
    (recur : (V → List Word) → Assignment V →
      ((V → List Word) × Except Unit (Option (Assignment V))))
    (hr : ∀ st b, (recur st b).1 = st) :
    ∀ (ws : List Word) (acc : (V → List Word) × Except Unit (Option (Assignment V))),
      (ws.foldl (btStep cw a v recur) acc).1 = acc.1 := by
  intro ws
  induction ws with
  | nil => intro acc; rfl
  | cons w ws ih =>
    intro acc
    rw [List.foldl_cons, ih]
    obtain ⟨st, e⟩ := acc
    cases e with
    | error e => rfl
    | ok o =>
      cases o with
      | some r => rfl
      | none =>
        simp only [btStep]
        split
        · exact hr st _
        · rfl

/-- C9.  The backtracking search never mutates the domain store: the store
component returned by backtrack is exactly the store it was given, for every
fuel, store and assignment (consistentB, order_domain_values and
select_unassigned_variable are store-reading functions with no store output in
this translation, and each candidate extension dinsert a v w is built from the
caller's own assignment, which the fold never rebinds). -/
theorem c9_backtrack_frame (cw : Crossword V) :
    ∀ (fuel : Nat) (s : V → List Word) (a : Assignment V),
      (backtrack cw fuel s a).1 = s := by
  intro fuel
  induction fuel with
  | zero => intro s a; rfl
  | succ fuel ih =>
    intro s a
    simp only [backtrack]
    split
    · rfl
    · cases hsel : select_unassigned_variable cw s a with
      | none => rfl
      | some v =>
        exact btLoop_fst cw a v (backtrack cw fuel) (fun st b => ih st b) (s v) (s, .ok none)

/-- C7.  The claim fails on the code: backtrack iterates the selected
variable's raw domain (self.domains[variable]) and never calls
order_domain_values.  On cwA from the empty assignment the selected slot 0 has
domain [a, b]; the word a would eliminate 2 of the 3 words of the unassigned
neighbor 1 while b would eliminate only 1, so least-constraining-value order
is [b, a]; the code nevertheless tries a first and returns the completion
with a. -/
theorem c7_lcv_not_used :
    (backtrack cwA 3 dA []).2 = .ok (some [(0, ['a']), (1, ['a','c'])]) ∧
    select_unassigned_variable cwA dA [] = some 0 ∧
    dA 0 = [['a'], ['b']] ∧
    order_domain_values cwA dA 0 [] = [['b'], ['a']] ∧
    (dA 1).countP (fun nw => charAt ['a'] 0 != charAt nw 0) = 2 ∧
    (dA 1).countP (fun nw => charAt ['b'] 0 != charAt nw 0) = 1 := by
  refine ⟨rfl, rfl, rfl, rfl, rfl, rfl⟩

end Generate
